import Mathlib

/-!
Verification of the CODEOWNERS validation core.

The definitions below embed the repository source, file by file:
path normalization, pattern matching, rule relevance classification,
manifest parsing, and the validation engine.  The third-party glob
library used by the source is not part of the repository; it is modelled
from the specification of the matching semantics (single-segment `*`,
multi-segment `**`, and base-name fallback for slash-free patterns).
-/

/-- Boolean test that the first list is an initial run of the second,
used to model the JavaScript `String.prototype.startsWith`. -/
def leadsWith : List Char → List Char → Bool
  | [], _ => true
  | _ :: _, [] => false
  | p :: ps, c :: cs => p == c && leadsWith ps cs

/-- Model of the JavaScript `s.startsWith(pre)` on strings. -/
def strStartsWith (s pre : String) : Bool :=
  leadsWith pre.data s.data

/-- Model of the JavaScript `s.endsWith(suf)` on strings. -/
def strEndsWith (s suf : String) : Bool :=
  leadsWith suf.data.reverse s.data.reverse

/-- Model of the JavaScript `s.includes(c)` for a single character. -/
def strContains (s : String) (c : Char) : Bool :=
  s.data.contains c

/-- Model of the JavaScript `s.split(sep)` for a one-character separator:
the blocks between occurrences of the separator, in order.  The result is
never empty, and splitting the empty string yields one empty block. -/
def splitOnChar (sep : Char) : List Char → List (List Char)
  | [] => [[]]
  | c :: cs =>
    if c == sep then [] :: splitOnChar sep cs
    else
      match splitOnChar sep cs with
      | [] => [[c]]
      | a :: rest => (c :: a) :: rest

/-- Inverse of `splitOnChar`: interleave the separator between blocks. -/
def joinSegs (sep : Char) : List (List Char) → List Char
  | [] => []
  | [s] => s
  | s :: rest => s ++ sep :: joinSegs sep rest

/-- Remove every trailing occurrence of the character, the effect of the
regular expression replace of one-or-more trailing separators. -/
def dropTrailing (sep : Char) (l : List Char) : List Char :=
  (l.reverse.dropWhile (fun c => c == sep)).reverse

/-- Remove at most one trailing occurrence of the character, the effect
of the regular expression replace of a single optional trailing
separator. -/
def dropOneTrailing (sep : Char) (l : List Char) : List Char :=
  if l.getLast? == some sep then l.dropLast else l

/-- Translation of the source `normalizePath`: strip one leading `./`,
then one leading `/`, then all trailing `/`, and finally convert every
backslash to a forward slash, in exactly that order. -/
def normalizePath (p : String) : String :=
  let s1 := if strStartsWith p "./" then String.mk (p.data.drop 2) else p
  let s2 := if strStartsWith s1 "/" then String.mk (s1.data.drop 1) else s1
  let s3 := String.mk (dropTrailing '/' s2.data)
  String.mk (s3.data.map (fun c => if c == '\\' then '/' else c))

/-- The glob segment that matches a whole run of path segments. -/
def glob2 : List Char := ['*', '*']

/-- Modelled from the spec: matching of one glob segment against one
path segment, where `*` matches any run of characters inside the segment
and every other character stands for itself. -/
def segMatch : List Char → List Char → Bool
  | [], cs => cs.isEmpty
  | p :: ps, cs =>
    if p == '*' then (cs.tails).any (fun rest => segMatch ps rest)
    else
      match cs with
      | [] => false
      | c :: cs2 => p == c && segMatch ps cs2

/-- Modelled from the spec: matching of a glob pattern against a path,
both given as lists of `/`-delimited segments.  A pattern segment that is
exactly `**` matches zero or more whole path segments; any other pattern
segment must match exactly one path segment via `segMatch`. -/
def matchSegs : List (List Char) → List (List Char) → Bool
  | [], fs => fs.isEmpty
  | p :: ps, fs =>
    if p == glob2 then (fs.tails).any (fun rest => matchSegs ps rest)
    else
      match fs with
      | [] => false
      | f :: fs2 => segMatch p f && matchSegs ps fs2

/-- The `/`-delimited segments of a string. -/
def segsOf (s : String) : List (List Char) :=
  splitOnChar '/' s.data

/-- The final `/`-delimited segment of a string, the base name used by
the base-name fallback of the matcher. -/
def baseNameOf (s : String) : List Char :=
  (segsOf s).reverse.headD []

/-- Modelled from the spec: the glob matcher applied by the source.  With
the base-name option set, a pattern that has no `/` is matched against
the base name of the path; otherwise pattern and path are matched
segment by segment. -/
def minimatchFn (path pat : String) (matchBase : Bool) : Bool :=
  if matchBase && !(strContains pat '/') then
    matchSegs (segsOf pat) [baseNameOf path]
  else
    matchSegs (segsOf pat) (segsOf path)

/-- Translation of the source `ruleMatchesPath`: normalize both inputs;
a rule with a `*` is matched with the base-name option, and a rule
without one matches exactly or as a directory prefix via the appended
`/**`. -/
def ruleMatchesPath (rule filePath : String) : Bool :=
  let cleanRule := normalizePath rule
  let cleanPath := normalizePath filePath
  let hasGlob := strContains cleanRule '*'
  if hasGlob then
    minimatchFn cleanPath cleanRule true
  else
    minimatchFn cleanPath cleanRule false
      || minimatchFn cleanPath (cleanRule ++ "/**") false

/-- The literal portion of a normalized rule before the first `*`, with
at most one trailing `/` removed, as computed by the source relevance
check. -/
def ruleBaseOf (cleanRule : String) : String :=
  String.mk (dropOneTrailing '/' ((splitOnChar '*' cleanRule.data).headD []))

/-- Translation of the source `isRuleRelevantToFolders`: the loop over
the folders with its four early-return conditions becomes a disjunction
under `List.any`. -/
def isRuleRelevantToFolders (rule : String) (folders : List String) : Bool :=
  let cleanRule := normalizePath rule
  folders.any (fun folder =>
    let cleanFolder := normalizePath folder
    strStartsWith cleanRule (cleanFolder ++ "/") || cleanRule == cleanFolder
    || strStartsWith cleanFolder (cleanRule ++ "/") || cleanFolder == cleanRule
    || (strContains cleanRule '*'
        && (minimatchFn cleanFolder cleanRule true
            || (ruleBaseOf cleanRule != ""
                && (strStartsWith cleanFolder (ruleBaseOf cleanRule ++ "/")
                    || cleanFolder == ruleBaseOf cleanRule)))))

/-- Translation of the source `isValidCodeOwnersLine`: the line does not
start with `#` and its trim is non-empty, the latter rendered as the
existence of a non-whitespace character. -/
def isValidCodeOwnersLine (line : String) : Bool :=
  !(strStartsWith line "#") && line.data.any (fun c => !c.isWhitespace)

/-- The value of `line.split(' ')[0]` in the source parser: the portion
of the line before its first space character. -/
def firstSpaceField (line : String) : String :=
  String.mk ((splitOnChar ' ' line.data).headD [])

/-- Model of `Map.set` on an association list with unique keys kept in
insertion order: an existing key keeps its position and receives the new
value, a new key is appended. -/
def mapSet (m : List (String × Nat)) (k : String) (v : Nat) :
    List (String × Nat) :=
  if m.any (fun e => e.1 == k) then
    m.map (fun e => if e.1 == k then (k, v) else e)
  else m ++ [(k, v)]

/-- Translation of the source `parseCodeOwnersFile` on the list of lines
of the manifest: keep the valid lines and record the first space-split
field of each with a counter initialized to zero. -/
def parseCodeOwnersFile (lines : List String) : List (String × Nat) :=
  lines.foldl
    (fun rules line =>
      if isValidCodeOwnersLine line then
        mapSet rules (firstSpaceField line) 0
      else rules)
    []

/-- Translation of the source `scanAllFiles`, with the recursive
directory walk `getAllFiles` supplied as an external enumerator per the
specification: the concatenation of the enumerations of the roots. -/
def scanAllFiles (getAllFiles : String → List String)
    (rootFolders : List String) : List String :=
  (rootFolders.map getAllFiles).flatten

/-- Translation of the source `checkOwnership`: whether any rule matches
the file, together with the rule list in which every matching rule has
its counter incremented. -/
def checkOwnership (filePath : String) (rules : List (String × Nat)) :
    Bool × List (String × Nat) :=
  (rules.any (fun e => ruleMatchesPath e.1 filePath),
   rules.map (fun e =>
     if ruleMatchesPath e.1 filePath then (e.1, e.2 + 1) else e))

/-- One step of the sequential file pass of the source engine: check one
file against the current rule counters and record it when uncovered. -/
def engineStep (st : List (String × Nat) × List String) (fp : String) :
    List (String × Nat) × List String :=
  let res := checkOwnership fp st.1
  (res.2, if res.1 then st.2 else st.2 ++ [fp])

/-- The sequential file pass of the source engine: the filter with the
counter side effect, carried out as a left fold returning the final rule
counters and the uncovered files in order. -/
def processFiles (rules : List (String × Nat)) (files : List String) :
    List (String × Nat) × List String :=
  files.foldl engineStep (rules, [])

/-- The unused rules of a run: rules whose final counter is zero and
that are relevant to the folders, in rule order. -/
def unusedRulesOf (rules : List (String × Nat)) (files folders : List String) :
    List String :=
  (((processFiles rules files).1).filter
      (fun e => e.2 == 0 && isRuleRelevantToFolders e.1 folders)).map
    (fun e => e.1)

/-- The uncovered files of a run: enumerated files matched by no rule. -/
def uncoveredFilesOf (rules : List (String × Nat)) (files : List String) :
    List String :=
  (processFiles rules files).2

/-- Translation of the error-message assembly of the source engine, as
the list of lines later joined by newlines. -/
def buildErrorMessages (unused uncovered : List String) : List String :=
  (if unused.length > 0 then
    ["CODEOWNERS contains rules that do not match any files in the specified folders:"]
      ++ unused.map (fun rule => "  - " ++ rule)
      ++ ["", "Please remove these entries or verify the paths exist."]
  else [])
  ++
  (if uncovered.length > 0 then
    ["The following files do not have owners:"]
      ++ uncovered.map (fun p => "  - " ++ p)
      ++ ["", "Please add rules to CODEOWNERS to cover these files."]
  else [])

/-- Translation of the source `validateCodeOwners` after rule parsing
and file enumeration: throw the collected error lines when there are
any, succeed otherwise. -/
def validateCodeOwners (rules : List (String × Nat))
    (files folders : List String) : Except (List String) Unit :=
  let unused := unusedRulesOf rules files folders
  let uncovered := uncoveredFilesOf rules files
  let msgs := buildErrorMessages unused uncovered
  if msgs.length > 0 then Except.error msgs else Except.ok ()

-- Model validation against the unit tests of the repository.
example : isValidCodeOwnersLine "# comment" = false := by decide
example : isValidCodeOwnersLine "   " = false := by decide
example : isValidCodeOwnersLine "/pkg/lib @owner" = true := by decide
example : ruleMatchesPath "/pkg/lib/index.ts" "pkg/lib/index.ts" = true := by decide
example : ruleMatchesPath "/pkg/lib/file.ts" "./pkg/lib/file.ts" = true := by decide
example : ruleMatchesPath "/pkg" "pkg/lib/index.ts" = true := by decide
example : ruleMatchesPath "/pkg/lib" "pkg/utils/helper.ts" = false := by decide
example : ruleMatchesPath "/pkg/foo" "pkg/foobar/index.ts" = false := by decide
example : ruleMatchesPath "/.config/run-*" ".config/run-tests.sh" = true := by decide
example : ruleMatchesPath "*.ts" "pkg/lib/index.ts" = true := by decide
example : ruleMatchesPath "*.ts" "pkg/lib/index.js" = false := by decide
example : ruleMatchesPath "/.config/run-*" ".config/other.sh" = false := by decide
example : ruleMatchesPath "pkg/**/foo.ts" "pkg/a/b/foo.ts" = true := by decide
example : ruleMatchesPath "pkg/**/foo.ts" "pkg/foo.ts" = true := by decide
example : ruleMatchesPath "pkg/**/foo.ts" "pkg/bar.ts" = false := by decide
example : isRuleRelevantToFolders "/src/lib" ["src"] = true := by decide
example : isRuleRelevantToFolders "/src" ["src/lib"] = true := by decide
example : isRuleRelevantToFolders "src" ["src"] = true := by decide
example : isRuleRelevantToFolders "/docs" ["src"] = false := by decide
example : isRuleRelevantToFolders "/pkg/other" ["pkg/lib"] = false := by decide
example : isRuleRelevantToFolders "*.ts" ["src"] = false := by decide
example : isRuleRelevantToFolders "/src/*.ts" ["src"] = true := by decide
example : isRuleRelevantToFolders "/src/**/*.ts" ["src/lib"] = true := by decide
example : isRuleRelevantToFolders "/docs" ["src", "pkg"] = false := by decide
example :
    validateCodeOwners [("/pkg/lib", 0), ("/pkg/utils", 0)]
      ["pkg/lib/index.ts", "pkg/utils/helper.ts"] ["pkg"] = Except.ok () := rfl
example :
    validateCodeOwners [("/pkg/lib", 0), ("/docs", 0)]
      ["pkg/lib/index.ts"] ["pkg"] = Except.ok () := rfl

-- ## Basic lemmas about the string utilities

theorem leadsWith_iff (p s : List Char) : leadsWith p s = true ↔ p <+: s := by
  induction p generalizing s with
  | nil => simp [leadsWith]
  | cons a ps ih =>
    cases s with
    | nil => simp [leadsWith]
    | cons c cs => simp [leadsWith, List.cons_prefix_cons, ih, And.comm]

theorem strStartsWith_iff (s pre : String) :
    strStartsWith s pre = true ↔ pre.data <+: s.data := by
  simp [strStartsWith, leadsWith_iff]

theorem strEndsWith_iff (s suf : String) :
    strEndsWith s suf = true ↔ suf.data <:+ s.data := by
  simp [strEndsWith, leadsWith_iff, ← List.reverse_suffix]

theorem strContains_iff (s : String) (c : Char) :
    strContains s c = true ↔ c ∈ s.data := by
  simp [strContains, List.contains_iff_exists_mem_beq, beq_iff_eq]

theorem string_eq_iff_data (s t : String) : s = t ↔ s.data = t.data :=
  String.ext_iff

theorem splitOnChar_ne_nil (sep : Char) (l : List Char) :
    splitOnChar sep l ≠ [] := by
  cases l with
  | nil => simp [splitOnChar]
  | cons c cs =>
    simp only [splitOnChar]
    by_cases h : c == sep
    · simp [h]
    · simp only [h]
      cases splitOnChar sep cs <;> simp

theorem splitOnChar_cons_ne (sep c : Char) (cs : List Char) (h : ¬(c = sep)) :
    splitOnChar sep (c :: cs)
      = (c :: (splitOnChar sep cs).headD []) :: (splitOnChar sep cs).tail := by
  have hne := splitOnChar_ne_nil sep cs
  simp only [splitOnChar, beq_iff_eq, h, if_false]
  cases hsp : splitOnChar sep cs with
  | nil => exact absurd hsp hne
  | cons a rest => simp

theorem splitOnChar_sep_append (sep : Char) (xs ys : List Char) :
    splitOnChar sep (xs ++ sep :: ys)
      = splitOnChar sep xs ++ splitOnChar sep ys := by
  induction xs with
  | nil => simp [splitOnChar]
  | cons c cs ih =>
    by_cases h : c = sep
    · subst h
      rw [List.cons_append,
        show splitOnChar c (c :: (cs ++ c :: ys)) = [] :: splitOnChar c (cs ++ c :: ys) by
          simp [splitOnChar],
        ih,
        show splitOnChar c (c :: cs) = [] :: splitOnChar c cs by simp [splitOnChar]]
      rfl
    · rw [List.cons_append, splitOnChar_cons_ne sep c _ h, ih,
        splitOnChar_cons_ne sep c cs h]
      have hne := splitOnChar_ne_nil sep cs
      cases hsp : splitOnChar sep cs with
      | nil => exact absurd hsp hne
      | cons a rest => simp

theorem splitOnChar_no_sep (sep : Char) (xs : List Char) (h : sep ∉ xs) :
    splitOnChar sep xs = [xs] := by
  induction xs with
  | nil => simp [splitOnChar]
  | cons c cs ih =>
    have hc : ¬(c = sep) := fun hh => h (hh ▸ List.mem_cons_self c cs)
    rw [splitOnChar_cons_ne sep c cs hc,
      ih (fun hm => h (List.mem_cons_of_mem c hm))]
    simp

theorem mem_of_mem_splitOnChar (sep c : Char) (l : List Char)
    (seg : List Char) (hseg : seg ∈ splitOnChar sep l) (hc : c ∈ seg) :
    c ∈ l := by
  induction l generalizing seg with
  | nil =>
    simp [splitOnChar] at hseg
    subst hseg; simp at hc
  | cons a as ih =>
    by_cases ha : a = sep
    · subst ha
      simp only [splitOnChar, beq_self_eq_true, if_true, List.mem_cons] at hseg
      rcases hseg with h1 | h2
      · subst h1; simp at hc
      · exact List.mem_cons_of_mem _ (ih seg h2 hc)
    · rw [splitOnChar_cons_ne sep a as ha] at hseg
      rcases List.mem_cons.mp hseg with h1 | h2
      · subst h1
        rcases List.mem_cons.mp hc with h3 | h4
        · exact h3 ▸ List.mem_cons_self a as
        · have hne := splitOnChar_ne_nil sep as
          cases hsp : splitOnChar sep as with
          | nil => exact absurd hsp hne
          | cons b rest =>
            refine List.mem_cons_of_mem _ (ih b ?_ ?_)
            · rw [hsp]; exact List.mem_cons_self b rest
            · rw [hsp] at h4; simpa using h4
      · have hne := splitOnChar_ne_nil sep as
        cases hsp : splitOnChar sep as with
        | nil => exact absurd hsp hne
        | cons b rest =>
          refine List.mem_cons_of_mem _ (ih seg ?_ hc)
          rw [hsp]
          rw [hsp] at h2
          exact List.mem_cons_of_mem b (by simpa using h2)

theorem joinSegs_cons (sep : Char) (s : List Char) (rest : List (List Char))
    (h : rest ≠ []) : joinSegs sep (s :: rest) = s ++ sep :: joinSegs sep rest := by
  cases rest with
  | nil => exact absurd rfl h
  | cons a r => rfl

theorem joinSegs_splitOnChar (sep : Char) (l : List Char) :
    joinSegs sep (splitOnChar sep l) = l := by
  induction l with
  | nil => simp [splitOnChar, joinSegs]
  | cons c cs ih =>
    by_cases h : c = sep
    · subst h
      rw [show splitOnChar c (c :: cs) = [] :: splitOnChar c cs by
        simp [splitOnChar]]
      rw [joinSegs_cons c [] _ (splitOnChar_ne_nil c cs), ih]
      simp
    · rw [splitOnChar_cons_ne sep c cs h]
      have hne := splitOnChar_ne_nil sep cs
      cases hsp : splitOnChar sep cs with
      | nil => exact absurd hsp hne
      | cons a rest =>
        rw [hsp] at ih
        cases rest with
        | nil =>
          simp only [List.headD, List.tail]
          simp only [joinSegs] at ih ⊢
          simp [ih]
        | cons b r =>
          simp only [List.headD, List.tail]
          rw [joinSegs_cons sep (c :: a) _ (by simp),
            joinSegs_cons sep a _ (by simp)] at *
          simp_all

theorem splitOnChar_injective (sep : Char) (a b : List Char)
    (h : splitOnChar sep a = splitOnChar sep b) : a = b := by
  have ha := joinSegs_splitOnChar sep a
  have hb := joinSegs_splitOnChar sep b
  rw [← ha, ← hb, h]

theorem joinSegs_append (sep : Char) (as bs : List (List Char))
    (ha : as ≠ []) (hb : bs ≠ []) :
    joinSegs sep (as ++ bs) = joinSegs sep as ++ sep :: joinSegs sep bs := by
  induction as with
  | nil => exact absurd rfl ha
  | cons x xs ih =>
    cases xs with
    | nil =>
      rw [List.singleton_append, joinSegs_cons sep x bs hb]
      simp [joinSegs]
    | cons y ys =>
      rw [List.cons_append, joinSegs_cons sep x _ (by simp),
        joinSegs_cons sep x _ (by simp), ih (by simp)]
      simp

-- ## Character membership through normalization

theorem mem_dropWhileBeq_iff (sep a : Char) (l : List Char) (hne : ¬(a = sep)) :
    a ∈ l.dropWhile (fun c => c == sep) ↔ a ∈ l := by
  induction l with
  | nil => simp
  | cons c cs ih =>
    simp only [List.dropWhile_cons]
    by_cases hc : (c == sep) = true
    · have hcs : c = sep := beq_iff_eq.mp hc
      have hac : ¬(a = c) := fun h => hne (h.trans hcs)
      simp [hc, ih, List.mem_cons, hac]
    · simp [hc]

theorem mem_dropTrailing_iff (sep a : Char) (l : List Char) (hne : ¬(a = sep)) :
    a ∈ dropTrailing sep l ↔ a ∈ l := by
  unfold dropTrailing
  rw [List.mem_reverse, mem_dropWhileBeq_iff sep a _ hne, List.mem_reverse]

theorem mem_backslashMap_iff (a : Char) (l : List Char)
    (h1 : ¬(a = '/')) (h2 : ¬(a = '\\')) :
    a ∈ l.map (fun c => if c == '\\' then '/' else c) ↔ a ∈ l := by
  constructor
  · intro h
    rcases List.mem_map.mp h with ⟨b, hb, hfb⟩
    by_cases hbb : (b == '\\') = true
    · rw [if_pos hbb] at hfb; exact absurd hfb.symm h1
    · rw [if_neg hbb] at hfb; exact hfb ▸ hb
  · intro h
    refine List.mem_map.mpr ⟨a, h, ?_⟩
    have : ¬((a == '\\') = true) := fun hh => h2 (beq_iff_eq.mp hh)
    rw [if_neg this]

theorem star_mem_normalizePath (p : String) :
    '*' ∈ (normalizePath p).data ↔ '*' ∈ p.data := by
  unfold normalizePath
  have hdot : ¬(('*' : Char) = '.') := by decide
  have hslash : ¬(('*' : Char) = '/') := by decide
  have hback : ¬(('*' : Char) = '\\') := by decide
  by_cases h1 : strStartsWith p "./"
  · rcases (strStartsWith_iff p "./").mp h1 with ⟨t, ht⟩
    have hdata : p.data = '.' :: '/' :: t := by
      rw [← ht]; rfl
    have hdrop : p.data.drop 2 = t := by rw [hdata]; rfl
    simp only [h1, if_true]
    by_cases h2 : strStartsWith (String.mk (p.data.drop 2)) "/"
    · rcases (strStartsWith_iff _ "/").mp h2 with ⟨t2, ht2⟩
      have hdata2 : p.data.drop 2 = '/' :: t2 := ht2.symm
      have htt : t = '/' :: t2 := by rw [← hdrop, hdata2]
      simp only [h2, if_true]
      rw [mem_backslashMap_iff _ _ hslash hback,
        mem_dropTrailing_iff '/' '*' _ hslash]
      show '*' ∈ (p.data.drop 2).drop 1 ↔ _
      rw [hdata2, hdata, htt]
      simp [hslash, hdot]
    · simp only [h2, Bool.false_eq_true, if_false]
      rw [mem_backslashMap_iff _ _ hslash hback,
        mem_dropTrailing_iff '/' '*' _ hslash]
      show '*' ∈ p.data.drop 2 ↔ _
      rw [hdrop, hdata]
      simp [hslash, hdot]
  · simp only [h1, Bool.false_eq_true, if_false]
    by_cases h2 : strStartsWith p "/"
    · rcases (strStartsWith_iff _ "/").mp h2 with ⟨t2, ht2⟩
      have hdata2 : p.data = '/' :: t2 := by
        rw [← ht2]; rfl
      simp only [h2, if_true]
      rw [mem_backslashMap_iff _ _ hslash hback,
        mem_dropTrailing_iff '/' '*' _ hslash]
      show '*' ∈ p.data.drop 1 ↔ _
      rw [hdata2]
      simp [hslash]
    · simp only [h2, Bool.false_eq_true, if_false]
      rw [mem_backslashMap_iff _ _ hslash hback,
        mem_dropTrailing_iff '/' '*' _ hslash]

theorem strContains_star_normalizePath (p : String) :
    strContains (normalizePath p) '*' = strContains p '*' := by
  by_cases h : strContains p '*' = true
  · rw [h]
    exact (strContains_iff _ _).mpr
      ((star_mem_normalizePath p).mpr ((strContains_iff _ _).mp h))
  · rw [Bool.eq_false_iff.mpr h, Bool.eq_false_iff]
    intro hc
    exact h ((strContains_iff _ _).mpr
      ((star_mem_normalizePath p).mp ((strContains_iff _ _).mp hc)))

-- ## Literal (wildcard-free) matching

theorem segMatch_lit (p s : List Char) (h : '*' ∉ p) :
    segMatch p s = true ↔ p = s := by
  induction p generalizing s with
  | nil =>
    cases s <;> simp [segMatch]
  | cons a ps ih =>
    have ha : ¬((a == '*') = true) := by
      simp only [beq_iff_eq]
      intro hh; exact h (hh ▸ List.mem_cons_self a ps)
    have hps : '*' ∉ ps := fun hm => h (List.mem_cons_of_mem a hm)
    cases s with
    | nil => simp [segMatch, ha]
    | cons c cs =>
      simp [segMatch, ha, ih cs hps, List.cons_eq_cons, And.comm]

theorem glob2_has_star : '*' ∈ glob2 := by decide

theorem matchSegs_lit (ps fs : List (List Char))
    (h : ∀ p ∈ ps, '*' ∉ p) :
    matchSegs ps fs = true ↔ ps = fs := by
  induction ps generalizing fs with
  | nil => cases fs <;> simp [matchSegs]
  | cons p ps2 ih =>
    have hp : '*' ∉ p := h p (List.mem_cons_self p ps2)
    have hg : ¬((p == glob2) = true) := by
      simp only [beq_iff_eq]
      intro hh; exact hp (hh ▸ glob2_has_star)
    have hrest : ∀ q ∈ ps2, '*' ∉ q := fun q hq => h q (List.mem_cons_of_mem p hq)
    cases fs with
    | nil => simp [matchSegs, hg]
    | cons f fs2 =>
      simp [matchSegs, hg, segMatch_lit p f hp, ih fs2 hrest,
        List.cons_eq_cons]

theorem matchSegs_lit_globstar (ps fs : List (List Char))
    (h : ∀ p ∈ ps, '*' ∉ p) :
    matchSegs (ps ++ [glob2]) fs = true ↔ ps <+: fs := by
  induction ps generalizing fs with
  | nil =>
    simp only [List.nil_append, List.nil_prefix, iff_true]
    show matchSegs (glob2 :: []) fs = true
    simp only [matchSegs, beq_self_eq_true, if_true, List.any_eq_true]
    refine ⟨[], (List.mem_tails _ _).mpr List.nil_suffix, ?_⟩
    rfl
  | cons p ps2 ih =>
    have hp : '*' ∉ p := h p (List.mem_cons_self p ps2)
    have hg : ¬((p == glob2) = true) := by
      simp only [beq_iff_eq]
      intro hh; exact hp (hh ▸ glob2_has_star)
    have hrest : ∀ q ∈ ps2, '*' ∉ q := fun q hq => h q (List.mem_cons_of_mem p hq)
    cases fs with
    | nil =>
      simp only [List.cons_append]
      simp [matchSegs, hg]
    | cons f fs2 =>
      simp only [List.cons_append]
      simp [matchSegs, hg, segMatch_lit p f hp, ih fs2 hrest,
        List.cons_prefix_cons]

theorem segs_prefix_iff (a b : String) :
    splitOnChar '/' a.data <+: splitOnChar '/' b.data ↔
      (a.data = b.data ∨ (a.data ++ ['/']) <+: b.data) := by
  constructor
  · rintro ⟨rest, hrest⟩
    cases rest with
    | nil =>
      rw [List.append_nil] at hrest
      exact Or.inl (splitOnChar_injective '/' a.data b.data hrest)
    | cons t ts =>
      refine Or.inr ⟨joinSegs '/' (t :: ts), ?_⟩
      have hb := joinSegs_splitOnChar '/' b.data
      rw [← hrest,
        joinSegs_append '/' _ _ (splitOnChar_ne_nil '/' a.data) (by simp),
        joinSegs_splitOnChar] at hb
      rw [← hb, List.append_assoc]
      rfl
  · rintro (heq | ⟨tail, htail⟩)
    · rw [heq]
    · refine ⟨splitOnChar '/' tail, ?_⟩
      rw [← splitOnChar_sep_append]
      rw [show a.data ++ '/' :: tail = (a.data ++ ['/']) ++ tail by
        rw [List.append_assoc]; rfl]
      rw [htail]

theorem segsOf_no_star (s : String) (h : strContains s '*' = false)
    (q : List Char) (hq : q ∈ splitOnChar '/' s.data) : '*' ∉ q := by
  intro hstar
  have : strContains s '*' = true :=
    (strContains_iff _ _).mpr (mem_of_mem_splitOnChar '/' '*' s.data q hq hstar)
  rw [h] at this
  exact Bool.false_ne_true this

theorem minimatchFn_plain_lit (path pat : String)
    (h : strContains pat '*' = false) :
    minimatchFn path pat false = true ↔ pat.data = path.data := by
  unfold minimatchFn
  simp only [Bool.false_and, Bool.false_eq_true, if_false]
  unfold segsOf
  rw [matchSegs_lit _ _ (segsOf_no_star pat h)]
  constructor
  · exact fun hh => splitOnChar_injective '/' pat.data path.data hh
  · intro hh; rw [hh]

theorem minimatchFn_dir_glob (path pat : String)
    (h : strContains pat '*' = false) :
    minimatchFn path (pat ++ "/**") false = true ↔
      splitOnChar '/' pat.data <+: splitOnChar '/' path.data := by
  unfold minimatchFn
  simp only [Bool.false_and, Bool.false_eq_true, if_false]
  have hsegs : segsOf (pat ++ "/**") = splitOnChar '/' pat.data ++ [glob2] := by
    show splitOnChar '/' (pat ++ "/**").data = _
    rw [String.data_append,
      show ("/**" : String).data = '/' :: ['*', '*'] from rfl,
      splitOnChar_sep_append,
      splitOnChar_no_sep '/' ['*', '*'] (by decide)]
    rfl
  rw [hsegs, matchSegs_lit_globstar _ _ (segsOf_no_star pat h)]
  exact Iff.rfl

/-- C1: for every rule without a `*` and every file path, the rule
matches the path exactly when, after normalization, the path equals the
rule or extends it by a full path segment: directory-prefix matching is
segment-bounded, never a raw string prefix. -/
theorem ruleMatchesPath_non_wildcard (r f : String)
    (h : strContains r '*' = false) :
    ruleMatchesPath r f
      = (normalizePath f == normalizePath r
          || strStartsWith (normalizePath f) (normalizePath r ++ "/")) := by
  have hcr : strContains (normalizePath r) '*' = false := by
    rw [strContains_star_normalizePath]; exact h
  unfold ruleMatchesPath
  simp only [hcr, Bool.false_eq_true, if_false]
  rw [Bool.eq_iff_iff]
  simp only [Bool.or_eq_true]
  rw [minimatchFn_plain_lit _ _ hcr, minimatchFn_dir_glob _ _ hcr,
    segs_prefix_iff, beq_iff_eq, string_eq_iff_data, strStartsWith_iff,
    String.data_append, show ("/" : String).data = ['/'] from rfl]
  constructor
  · rintro (ha | ha | hc)
    · exact Or.inl ha.symm
    · exact Or.inl ha.symm
    · exact Or.inr hc
  · rintro (ha | hc)
    · exact Or.inl ha.symm
    · exact Or.inr (Or.inr hc)

/-- Witness for C1 at the inputs named by the claim. -/
theorem ruleMatchesPath_non_wildcard_witness :
    strContains "/pkg/foo" '*' = false
    ∧ ruleMatchesPath "/pkg/foo" "/pkg/foobar/x"
        = (normalizePath "/pkg/foobar/x" == normalizePath "/pkg/foo"
            || strStartsWith (normalizePath "/pkg/foobar/x")
                (normalizePath "/pkg/foo" ++ "/")) :=
  ⟨by decide, ruleMatchesPath_non_wildcard "/pkg/foo" "/pkg/foobar/x" (by decide)⟩

example : ruleMatchesPath "/pkg/foo" "/pkg/foobar/x" = false := by decide

-- ## Spec-side glob semantics as inductive relations

/-- Spec-side matching of one glob segment: a literal character matches
itself, and `*` matches zero or more characters. -/
inductive SegGlob : List Char → List Char → Prop
  | nil : SegGlob [] []
  | lit (c : Char) (p s : List Char) (hc : c ≠ '*') :
      SegGlob p s → SegGlob (c :: p) (c :: s)
  | star_zero (p s : List Char) : SegGlob p s → SegGlob ('*' :: p) s
  | star_more (p : List Char) (c : Char) (s : List Char) :
      SegGlob ('*' :: p) s → SegGlob ('*' :: p) (c :: s)

/-- Spec-side matching of a segment-list pattern: a `**` segment matches
zero or more whole path segments, any other pattern segment matches
exactly one path segment. -/
inductive GlobSegs : List (List Char) → List (List Char) → Prop
  | nil : GlobSegs [] []
  | seg (p f : List Char) (ps fs : List (List Char)) (hp : p ≠ glob2) :
      SegGlob p f → GlobSegs ps fs → GlobSegs (p :: ps) (f :: fs)
  | globstar_zero (ps fs : List (List Char)) :
      GlobSegs ps fs → GlobSegs (glob2 :: ps) fs
  | globstar_more (ps : List (List Char)) (f : List Char)
      (fs : List (List Char)) :
      GlobSegs (glob2 :: ps) fs → GlobSegs (glob2 :: ps) (f :: fs)

theorem segGlob_star_append (p pre s : List Char) (h : SegGlob p s) :
    SegGlob ('*' :: p) (pre ++ s) := by
  induction pre with
  | nil => exact SegGlob.star_zero p s h
  | cons c pre2 ih => exact SegGlob.star_more p c _ ih

theorem segGlob_of_match (p s : List Char) (h : segMatch p s = true) :
    SegGlob p s := by
  induction p generalizing s with
  | nil =>
    cases s with
    | nil => exact SegGlob.nil
    | cons c cs => simp [segMatch] at h
  | cons a ps ih =>
    by_cases ha : a = '*'
    · subst ha
      simp only [segMatch, beq_self_eq_true, if_true, List.any_eq_true] at h
      rcases h with ⟨rest, hrest, hm⟩
      rcases (List.mem_tails _ _).mp hrest with ⟨pre, hpre⟩
      rw [← hpre]
      exact segGlob_star_append ps pre rest (ih rest hm)
    · have ha2 : ¬((a == '*') = true) := by simpa using ha
      cases s with
      | nil => simp [segMatch, ha2] at h
      | cons c cs =>
        simp only [segMatch, ha2, Bool.false_eq_true, if_false] at h
        rw [Bool.and_eq_true, beq_iff_eq] at h
        obtain ⟨h1, hm⟩ := h
        subst h1
        exact SegGlob.lit a ps cs ha (ih cs hm)

theorem segGlob_to_match (p s : List Char) (h : SegGlob p s) :
    segMatch p s = true := by
  induction h with
  | nil => rfl
  | lit c p s hc hsub ih =>
    have hc2 : ¬((c == '*') = true) := by simpa using hc
    simp [segMatch, hc2, ih]
  | star_zero p s hsub ih =>
    simp only [segMatch, beq_self_eq_true, if_true, List.any_eq_true]
    exact ⟨s, (List.mem_tails _ _).mpr (List.suffix_refl s), ih⟩
  | star_more p c s hsub ih =>
    simp only [segMatch, beq_self_eq_true, if_true, List.any_eq_true] at ih ⊢
    rcases ih with ⟨rest, hrest, hm⟩
    exact ⟨rest,
      (List.mem_tails _ _).mpr
        (((List.mem_tails _ _).mp hrest).trans (List.suffix_cons c s)), hm⟩

theorem segMatch_iff_SegGlob (p s : List Char) :
    segMatch p s = true ↔ SegGlob p s :=
  ⟨segGlob_of_match p s, segGlob_to_match p s⟩

theorem globSegs_star_append (ps skip fs : List (List Char))
    (h : GlobSegs ps fs) : GlobSegs (glob2 :: ps) (skip ++ fs) := by
  induction skip with
  | nil => exact GlobSegs.globstar_zero ps fs h
  | cons f skip2 ih => exact GlobSegs.globstar_more ps f _ ih

theorem globSegs_of_match (ps fs : List (List Char))
    (h : matchSegs ps fs = true) : GlobSegs ps fs := by
  induction ps generalizing fs with
  | nil =>
    cases fs with
    | nil => exact GlobSegs.nil
    | cons f fs2 => simp [matchSegs] at h
  | cons p ps2 ih =>
    by_cases hp : p = glob2
    · subst hp
      simp only [matchSegs, beq_self_eq_true, if_true, List.any_eq_true] at h
      rcases h with ⟨rest, hrest, hm⟩
      rcases (List.mem_tails _ _).mp hrest with ⟨skip, hskip⟩
      rw [← hskip]
      exact globSegs_star_append ps2 skip rest (ih rest hm)
    · have hp2 : ¬((p == glob2) = true) := by simpa using hp
      cases fs with
      | nil => simp [matchSegs, hp2] at h
      | cons f fs2 =>
        simp only [matchSegs, hp2, Bool.false_eq_true, if_false] at h
        rw [Bool.and_eq_true] at h
        obtain ⟨h1, h2⟩ := h
        exact GlobSegs.seg p f ps2 fs2 hp (segGlob_of_match p f h1) (ih fs2 h2)

theorem globSegs_to_match (ps fs : List (List Char)) (h : GlobSegs ps fs) :
    matchSegs ps fs = true := by
  induction h with
  | nil => rfl
  | seg p f ps fs hp hsg hgs ih =>
    have hp2 : ¬((p == glob2) = true) := by simpa using hp
    simp [matchSegs, hp2, segGlob_to_match p f hsg, ih]
  | globstar_zero ps fs hsub ih =>
    simp only [matchSegs, beq_self_eq_true, if_true, List.any_eq_true]
    exact ⟨fs, (List.mem_tails _ _).mpr (List.suffix_refl fs), ih⟩
  | globstar_more ps f fs hsub ih =>
    simp only [matchSegs, beq_self_eq_true, if_true, List.any_eq_true] at ih ⊢
    rcases ih with ⟨rest, hrest, hm⟩
    exact ⟨rest,
      (List.mem_tails _ _).mpr
        (((List.mem_tails _ _).mp hrest).trans (List.suffix_cons f fs)), hm⟩

theorem matchSegs_iff_GlobSegs (ps fs : List (List Char)) :
    matchSegs ps fs = true ↔ GlobSegs ps fs :=
  ⟨globSegs_of_match ps fs, globSegs_to_match ps fs⟩

/-- Spec-side statement of the glob matcher with the base-name fallback:
a pattern without `/` is matched against the base name of the path,
any other pattern is matched against all the path segments. -/
def minimatchSpec (pat path : String) : Prop :=
  if strContains pat '/' = true then
    GlobSegs (segsOf pat) (segsOf path)
  else
    GlobSegs (segsOf pat) [baseNameOf path]

theorem minimatchFn_base_iff (path pat : String) :
    minimatchFn path pat true = true ↔ minimatchSpec pat path := by
  unfold minimatchFn minimatchSpec
  by_cases hc : strContains pat '/' = true
  · simp only [hc, Bool.not_true, Bool.and_false, Bool.false_eq_true, if_false,
      if_true]
    exact matchSegs_iff_GlobSegs _ _
  · have hc2 : strContains pat '/' = false := Bool.eq_false_iff.mpr hc
    simp only [hc2, Bool.not_false, Bool.and_true, Bool.true_and,
      Bool.false_eq_true, if_true, if_false]
    exact matchSegs_iff_GlobSegs _ _

/-- C2: for every rule that contains a wildcard, the source matcher
agrees with the spec-side glob semantics over `/`-delimited segments
(`**` spanning zero or more whole segments, `*` confined to one
segment), with the base-name fallback for slash-free patterns. -/
theorem ruleMatchesPath_glob (r f : String)
    (h : strContains r '*' = true) :
    ruleMatchesPath r f = true ↔
      minimatchSpec (normalizePath r) (normalizePath f) := by
  have hcr : strContains (normalizePath r) '*' = true := by
    rw [strContains_star_normalizePath]; exact h
  unfold ruleMatchesPath
  simp only [hcr, if_true]
  exact minimatchFn_base_iff _ _

/-- Witness for C2 at the inputs named by the claim. -/
theorem ruleMatchesPath_glob_witness :
    strContains "pkg/**/foo.ts" '*' = true
    ∧ (ruleMatchesPath "pkg/**/foo.ts" "pkg/foo.ts" = true ↔
        minimatchSpec (normalizePath "pkg/**/foo.ts") (normalizePath "pkg/foo.ts")) :=
  ⟨by decide, ruleMatchesPath_glob "pkg/**/foo.ts" "pkg/foo.ts" (by decide)⟩

-- ## Relevance classification

/-- Segment-bounded prefix: the first path equals an initial run of
whole segments of the second, i.e. the second starts with the first
followed by a separator. -/
def segPref (x y : String) : Prop :=
  (x.data ++ ['/']) <+: y.data

theorem strStartsWith_slash_iff (y x : String) :
    strStartsWith y (x ++ "/") = true ↔ segPref x y := by
  rw [strStartsWith_iff, String.data_append]
  exact Iff.rfl

theorem relevance_disj_iff (cr cf : String) :
    (strStartsWith cr (cf ++ "/") || cr == cf
      || strStartsWith cf (cr ++ "/") || cf == cr
      || (strContains cr '*'
          && (minimatchFn cf cr true
              || (ruleBaseOf cr != ""
                  && (strStartsWith cf (ruleBaseOf cr ++ "/")
                      || cf == ruleBaseOf cr))))) = true
    ↔ ((cr = cf ∨ segPref cr cf)
        ∨ (cf = cr ∨ segPref cf cr)
        ∨ (strContains cr '*' = true ∧ minimatchSpec cr cf)
        ∨ (strContains cr '*' = true ∧ ruleBaseOf cr ≠ ""
            ∧ (ruleBaseOf cr = cf ∨ segPref (ruleBaseOf cr) cf))) := by
  simp only [Bool.or_eq_true, Bool.and_eq_true, strStartsWith_slash_iff,
    beq_iff_eq, minimatchFn_base_iff, bne_iff_ne]
  tauto

/-- C3 (amended): the relevance check holds exactly when some folder
satisfies one of the four clauses, with the fourth clause additionally
requiring the pre-wildcard literal portion of the rule to be non-empty. -/
theorem isRuleRelevantToFolders_characterization (r : String) (F : List String) :
    isRuleRelevantToFolders r F = true ↔
      ∃ d ∈ F,
        (normalizePath r = normalizePath d
          ∨ segPref (normalizePath r) (normalizePath d))
        ∨ (normalizePath d = normalizePath r
          ∨ segPref (normalizePath d) (normalizePath r))
        ∨ (strContains (normalizePath r) '*' = true
          ∧ minimatchSpec (normalizePath r) (normalizePath d))
        ∨ (strContains (normalizePath r) '*' = true
          ∧ ruleBaseOf (normalizePath r) ≠ ""
          ∧ (ruleBaseOf (normalizePath r) = normalizePath d
            ∨ segPref (ruleBaseOf (normalizePath r)) (normalizePath d))) := by
  simp only [isRuleRelevantToFolders]
  rw [List.any_eq_true]
  constructor
  · rintro ⟨d, hd, hcond⟩
    exact ⟨d, hd, (relevance_disj_iff (normalizePath r) (normalizePath d)).mp hcond⟩
  · rintro ⟨d, hd, hprops⟩
    exact ⟨d, hd, (relevance_disj_iff (normalizePath r) (normalizePath d)).mpr hprops⟩

/-- C3 counterexample: for the rule `*.ts` and the folder list `["/"]`,
the characterization claimed without the non-empty requirement on the
pre-wildcard literal portion fails: the empty literal portion equals the
normalized folder, yet the source returns false. -/
theorem isRuleRelevantToFolders_claim_counterexample :
    ¬ (isRuleRelevantToFolders "*.ts" ["/"] = true ↔
        ∃ d ∈ ["/"],
          (normalizePath "*.ts" = normalizePath d
            ∨ segPref (normalizePath "*.ts") (normalizePath d))
          ∨ (normalizePath d = normalizePath "*.ts"
            ∨ segPref (normalizePath d) (normalizePath "*.ts"))
          ∨ (strContains (normalizePath "*.ts") '*' = true
            ∧ minimatchSpec (normalizePath "*.ts") (normalizePath d))
          ∨ (strContains (normalizePath "*.ts") '*' = true
            ∧ (ruleBaseOf (normalizePath "*.ts") = normalizePath d
              ∨ segPref (ruleBaseOf (normalizePath "*.ts")) (normalizePath d)))) := by
  intro hiff
  have htrue := hiff.mpr
    ⟨"/", by simp,
      Or.inr (Or.inr (Or.inr ⟨by decide, Or.inl (by decide)⟩))⟩
  have hfalse : isRuleRelevantToFolders "*.ts" ["/"] = false := by decide
  rw [hfalse] at htrue
  exact Bool.false_ne_true htrue

-- ## Engine lemmas

theorem checkOwnership_keys (fp : String) (rs : List (String × Nat)) :
    ((checkOwnership fp rs).2).map Prod.fst = rs.map Prod.fst := by
  unfold checkOwnership
  rw [List.map_map]
  apply List.map_congr_left
  intro e he
  by_cases h : ruleMatchesPath e.1 fp <;> simp [h]

theorem any_pred_fst (rs : List (String × Nat)) (q : String → Bool) :
    rs.any (fun e => q e.1) = (rs.map Prod.fst).any q := by
  induction rs with
  | nil => rfl
  | cons e es ih => simp [List.any_cons, ih]

theorem checkOwnership_any (fp fq : String) (rs : List (String × Nat)) :
    ((checkOwnership fp rs).2).any (fun e => ruleMatchesPath e.1 fq)
      = rs.any (fun e => ruleMatchesPath e.1 fq) := by
  rw [any_pred_fst _ (fun p => ruleMatchesPath p fq),
    any_pred_fst _ (fun p => ruleMatchesPath p fq), checkOwnership_keys]

theorem processFiles_go (files : List String) (rules : List (String × Nat))
    (acc : List String) :
    files.foldl engineStep (rules, acc)
      = (rules.map (fun e =>
            (e.1, e.2 + files.countP (fun fp => ruleMatchesPath e.1 fp))),
         acc ++ files.filter
            (fun fp => !(rules.any (fun e => ruleMatchesPath e.1 fp)))) := by
  induction files generalizing rules acc with
  | nil =>
    simp only [List.foldl_nil, List.countP_nil, Nat.add_zero, List.filter_nil,
      List.append_nil]
    rw [show rules.map (fun e => ((e.1 : String), (e.2 : Nat))) = rules by
      apply List.map_congr_left ?_ |>.trans (List.map_id rules)
      intro e he
      rfl]
  | cons fp fs ih =>
    rw [List.foldl_cons,
      show engineStep (rules, acc) fp
        = ((checkOwnership fp rules).2,
            if (checkOwnership fp rules).1 then acc else acc ++ [fp]) from rfl,
      ih]
    simp only [Prod.mk.injEq]
    constructor
    · show ((rules.map (fun e =>
          if ruleMatchesPath e.1 fp then (e.1, e.2 + 1) else e)).map _) = _
      rw [List.map_map]
      apply List.map_congr_left
      intro e he
      by_cases hm : ruleMatchesPath e.1 fp = true
      · simp [Function.comp, hm, List.countP_cons]
        all_goals omega
      · simp [Function.comp, hm, List.countP_cons]
    · have hq : fs.filter
          (fun fq => !(((checkOwnership fp rules).2).any
            (fun e => ruleMatchesPath e.1 fq)))
          = fs.filter
              (fun fq => !(rules.any (fun e => ruleMatchesPath e.1 fq))) := by
        apply List.filter_congr
        intro fq hfq
        rw [checkOwnership_any]
      rw [hq, List.filter_cons]
      show (if (rules.any (fun e => ruleMatchesPath e.1 fp)) = true
          then acc else acc ++ [fp]) ++ _ = _
      by_cases how : rules.any (fun e => ruleMatchesPath e.1 fp) = true
      · rw [if_pos how, if_neg (by simp [how])]
      · rw [if_neg how, if_pos (by simp [Bool.eq_false_iff.mpr how])]
        simp

theorem processFiles_eq (rules : List (String × Nat)) (files : List String) :
    processFiles rules files
      = (rules.map (fun e =>
            (e.1, e.2 + files.countP (fun fp => ruleMatchesPath e.1 fp))),
         files.filter
            (fun fp => !(rules.any (fun e => ruleMatchesPath e.1 fp)))) := by
  unfold processFiles
  rw [processFiles_go]
  simp

theorem buildErrorMessages_nil_iff (u c : List String) :
    buildErrorMessages u c = [] ↔ u = [] ∧ c = [] := by
  unfold buildErrorMessages
  cases u <;> cases c <;> simp

theorem mem_buildErrorMessages_unused (u c : List String) (r : String)
    (h : r ∈ u) : ("  - " ++ r) ∈ buildErrorMessages u c := by
  unfold buildErrorMessages
  rw [if_pos (List.length_pos.mpr (List.ne_nil_of_mem h))]
  exact List.mem_append_left _
    (List.mem_append_left _
      (List.mem_append_right _ (List.mem_map.mpr ⟨r, h, rfl⟩)))

theorem mem_buildErrorMessages_uncovered (u c : List String) (fp : String)
    (h : fp ∈ c) : ("  - " ++ fp) ∈ buildErrorMessages u c := by
  unfold buildErrorMessages
  rw [show (if c.length > 0 then
      ["The following files do not have owners:"]
        ++ c.map (fun p => "  - " ++ p)
        ++ ["", "Please add rules to CODEOWNERS to cover these files."]
    else []) =
      ["The following files do not have owners:"]
        ++ c.map (fun p => "  - " ++ p)
        ++ ["", "Please add rules to CODEOWNERS to cover these files."]
    from if_pos (List.length_pos.mpr (List.ne_nil_of_mem h))]
  exact List.mem_append_right _
    (List.mem_append_left _
      (List.mem_append_right _ (List.mem_map.mpr ⟨fp, h, rfl⟩)))

theorem validateCodeOwners_ok_iff (rules : List (String × Nat))
    (files folders : List String) :
    validateCodeOwners rules files folders = Except.ok () ↔
      (unusedRulesOf rules files folders = []
        ∧ uncoveredFilesOf rules files = []) := by
  unfold validateCodeOwners
  rw [← buildErrorMessages_nil_iff (unusedRulesOf rules files folders)
    (uncoveredFilesOf rules files)]
  by_cases h : (buildErrorMessages (unusedRulesOf rules files folders)
      (uncoveredFilesOf rules files)).length > 0
  · rw [if_pos h]
    constructor
    · intro hh; exact absurd hh (by simp)
    · intro hh; rw [hh] at h; simp at h
  · rw [if_neg h]
    have hnil : buildErrorMessages (unusedRulesOf rules files folders)
        (uncoveredFilesOf rules files) = [] :=
      List.eq_nil_of_length_eq_zero (Nat.eq_zero_of_not_pos h)
    simp [hnil]

theorem validateCodeOwners_error_eq (rules : List (String × Nat))
    (files folders : List String) (e : List String)
    (h : validateCodeOwners rules files folders = Except.error e) :
    e = buildErrorMessages (unusedRulesOf rules files folders)
      (uncoveredFilesOf rules files) := by
  unfold validateCodeOwners at h
  by_cases hl : (buildErrorMessages (unusedRulesOf rules files folders)
      (uncoveredFilesOf rules files)).length > 0
  · rw [if_pos hl] at h
    exact (Except.error.inj h).symm
  · rw [if_neg hl] at h
    exact absurd h (by simp)

/-- C4: the engine fails exactly when the report is non-empty, and every
failure carries the line for every unused rule and the line for every
uncovered file together in the single error value. -/
theorem validateCodeOwners_fails_iff (rules : List (String × Nat))
    (files folders : List String) :
    ((∃ e, validateCodeOwners rules files folders = Except.error e) ↔
      (unusedRulesOf rules files folders ≠ []
        ∨ uncoveredFilesOf rules files ≠ []))
    ∧ (∀ e, validateCodeOwners rules files folders = Except.error e →
        (∀ r ∈ unusedRulesOf rules files folders, ("  - " ++ r) ∈ e)
        ∧ (∀ fp ∈ uncoveredFilesOf rules files, ("  - " ++ fp) ∈ e)) := by
  constructor
  · constructor
    · rintro ⟨e, he⟩
      by_contra hcon
      push_neg at hcon
      have hok := (validateCodeOwners_ok_iff rules files folders).mpr
        ⟨hcon.1, hcon.2⟩
      rw [hok] at he
      exact absurd he (by simp)
    · intro hne
      have hmsgs : buildErrorMessages (unusedRulesOf rules files folders)
          (uncoveredFilesOf rules files) ≠ [] := by
        intro hh
        rcases (buildErrorMessages_nil_iff _ _).mp hh with ⟨h1, h2⟩
        rcases hne with hu | hc
        · exact hu h1
        · exact hc h2
      refine ⟨buildErrorMessages (unusedRulesOf rules files folders)
        (uncoveredFilesOf rules files), ?_⟩
      unfold validateCodeOwners
      rw [if_pos (List.length_pos.mpr hmsgs)]
  · intro e he
    rw [validateCodeOwners_error_eq rules files folders e he]
    exact ⟨fun r hr => mem_buildErrorMessages_unused _ _ r hr,
      fun fp hfp => mem_buildErrorMessages_uncovered _ _ fp hfp⟩

/-- Witness for C4 at a concrete run with one unused rule and one
uncovered file. -/
theorem validateCodeOwners_fails_iff_witness :
    ((∃ e, validateCodeOwners [("/pkg/stale", 0)] ["pkg/unowned/file.ts"]
        ["pkg"] = Except.error e) ↔
      (unusedRulesOf [("/pkg/stale", 0)] ["pkg/unowned/file.ts"] ["pkg"] ≠ []
        ∨ uncoveredFilesOf [("/pkg/stale", 0)] ["pkg/unowned/file.ts"] ≠ []))
    ∧ (∀ e, validateCodeOwners [("/pkg/stale", 0)] ["pkg/unowned/file.ts"]
          ["pkg"] = Except.error e →
        (∀ r ∈ unusedRulesOf [("/pkg/stale", 0)] ["pkg/unowned/file.ts"]
            ["pkg"], ("  - " ++ r) ∈ e)
        ∧ (∀ fp ∈ uncoveredFilesOf [("/pkg/stale", 0)]
            ["pkg/unowned/file.ts"], ("  - " ++ fp) ∈ e)) :=
  validateCodeOwners_fails_iff [("/pkg/stale", 0)] ["pkg/unowned/file.ts"]
    ["pkg"]

/-- C5: each ownership check leaves a counter unchanged or increments it
by one while keeping the rule pattern; after the whole pass, starting
from the zero counters that parsing produces, every final counter equals
the number of enumerated files the rule matches; and the unused rules
are exactly the relevant rules whose final match count is zero. -/
theorem ruleCounters_final (rules : List (String × Nat))
    (files folders : List String) (h0 : ∀ e ∈ rules, e.2 = 0) :
    (processFiles rules files).1
        = rules.map (fun e =>
            (e.1, files.countP (fun fp => ruleMatchesPath e.1 fp)))
    ∧ (∀ (fp : String) (rs : List (String × Nat)) (i : Nat)
          (e1 e2 : String × Nat),
        rs[i]? = some e1 → ((checkOwnership fp rs).2)[i]? = some e2 →
          e2.1 = e1.1 ∧ e1.2 ≤ e2.2 ∧ e2.2 ≤ e1.2 + 1)
    ∧ unusedRulesOf rules files folders
        = (rules.filter (fun e =>
            (files.countP (fun fp => ruleMatchesPath e.1 fp) == 0)
              && isRuleRelevantToFolders e.1 folders)).map Prod.fst := by
  refine ⟨?_, ?_, ?_⟩
  · rw [processFiles_eq]
    apply List.map_congr_left
    intro e he
    rw [h0 e he, Nat.zero_add]
  · intro fp rs i e1 e2 h1 h2
    have hmap : ((checkOwnership fp rs).2)[i]?
        = (rs[i]?).map (fun e =>
            if ruleMatchesPath e.1 fp then (e.1, e.2 + 1) else e) := by
      show ((rs.map (fun e =>
          if ruleMatchesPath e.1 fp then (e.1, e.2 + 1) else e))[i]?) = _
      rw [List.getElem?_map]
    rw [hmap, h1] at h2
    have he2 : e2 = if ruleMatchesPath e1.1 fp then (e1.1, e1.2 + 1) else e1 :=
      (Option.some.inj h2).symm
    by_cases hm : ruleMatchesPath e1.1 fp = true
    · rw [he2, if_pos hm]
      exact ⟨rfl, Nat.le_succ _, Nat.le_refl _⟩
    · rw [he2, if_neg hm]
      exact ⟨rfl, Nat.le_refl _, Nat.le_succ _⟩
  · unfold unusedRulesOf
    rw [processFiles_eq, List.filter_map, List.map_map]
    rw [List.filter_congr (q := fun e =>
        (files.countP (fun fp => ruleMatchesPath e.1 fp) == 0)
          && isRuleRelevantToFolders e.1 folders) ?_]
    · apply List.map_congr_left
      intro e he
      rfl
    · intro e he
      show (((e.2 + files.countP (fun fp => ruleMatchesPath e.1 fp)) == 0)
          && isRuleRelevantToFolders e.1 folders)
        = ((files.countP (fun fp => ruleMatchesPath e.1 fp) == 0)
          && isRuleRelevantToFolders e.1 folders)
      rw [h0 e he, Nat.zero_add]

/-- Witness for C5 at a one-rule, one-file run. -/
theorem ruleCounters_final_witness :
    ((processFiles [("/pkg", 0)] ["pkg/a.ts"]).1
        = [("/pkg", 0)].map (fun e =>
            (e.1, ["pkg/a.ts"].countP (fun fp => ruleMatchesPath e.1 fp)))
    ∧ (∀ (fp : String) (rs : List (String × Nat)) (i : Nat)
          (e1 e2 : String × Nat),
        rs[i]? = some e1 → ((checkOwnership fp rs).2)[i]? = some e2 →
          e2.1 = e1.1 ∧ e1.2 ≤ e2.2 ∧ e2.2 ≤ e1.2 + 1)
    ∧ unusedRulesOf [("/pkg", 0)] ["pkg/a.ts"] ["pkg"]
        = ([("/pkg", 0)].filter (fun e =>
            (["pkg/a.ts"].countP (fun fp => ruleMatchesPath e.1 fp) == 0)
              && isRuleRelevantToFolders e.1 ["pkg"])).map Prod.fst) :=
  ruleCounters_final [("/pkg", 0)] ["pkg/a.ts"] ["pkg"] (by decide)

/-- C9: the validation outcome does not depend on the enumeration order
of the files: under any permutation of the file list the unused rules
are the same list, the uncovered files are a permutation, and the
success verdict is unchanged. -/
theorem validation_perm_invariant (rules : List (String × Nat))
    (files files2 folders : List String) (h : files.Perm files2) :
    unusedRulesOf rules files2 folders = unusedRulesOf rules files folders
    ∧ (uncoveredFilesOf rules files2).Perm (uncoveredFilesOf rules files)
    ∧ (validateCodeOwners rules files2 folders = Except.ok ()
        ↔ validateCodeOwners rules files folders = Except.ok ()) := by
  have hcount : ∀ p : String → Bool, files2.countP p = files.countP p :=
    fun p => h.symm.countP_eq p
  have h1 : unusedRulesOf rules files2 folders
      = unusedRulesOf rules files folders := by
    unfold unusedRulesOf
    rw [processFiles_eq, processFiles_eq]
    rw [show (fun (e : String × Nat) =>
        (e.1, e.2 + files2.countP (fun fp => ruleMatchesPath e.1 fp)))
        = (fun (e : String × Nat) =>
            (e.1, e.2 + files.countP (fun fp => ruleMatchesPath e.1 fp))) by
      funext e
      rw [hcount]]
  have h2 : (uncoveredFilesOf rules files2).Perm
      (uncoveredFilesOf rules files) := by
    unfold uncoveredFilesOf
    rw [processFiles_eq, processFiles_eq]
    exact (h.symm).filter _
  refine ⟨h1, h2, ?_⟩
  rw [validateCodeOwners_ok_iff, validateCodeOwners_ok_iff, h1]
  have hempty : uncoveredFilesOf rules files2 = []
      ↔ uncoveredFilesOf rules files = [] := by
    constructor
    · intro hh
      exact (hh ▸ h2).symm.eq_nil
    · intro hh
      exact (hh ▸ h2).eq_nil
  rw [hempty]

/-- Witness for C9 at a two-file swap. -/
theorem validation_perm_invariant_witness :
    (unusedRulesOf [("/pkg", 0)] ["pkg/b.ts", "pkg/a.ts"] ["pkg"]
        = unusedRulesOf [("/pkg", 0)] ["pkg/a.ts", "pkg/b.ts"] ["pkg"]
    ∧ (uncoveredFilesOf [("/pkg", 0)] ["pkg/b.ts", "pkg/a.ts"]).Perm
        (uncoveredFilesOf [("/pkg", 0)] ["pkg/a.ts", "pkg/b.ts"])
    ∧ (validateCodeOwners [("/pkg", 0)] ["pkg/b.ts", "pkg/a.ts"] ["pkg"]
          = Except.ok ()
        ↔ validateCodeOwners [("/pkg", 0)] ["pkg/a.ts", "pkg/b.ts"] ["pkg"]
          = Except.ok ())) :=
  validation_perm_invariant [("/pkg", 0)] ["pkg/a.ts", "pkg/b.ts"]
    ["pkg/b.ts", "pkg/a.ts"] ["pkg"] (List.Perm.swap "pkg/b.ts" "pkg/a.ts" [])

/-- C10: with no tracked folders the engine enumerates no files and
succeeds for every rule list, and no rule is relevant to the empty
folder list. -/
theorem validateCodeOwners_no_folders (rules : List (String × Nat))
    (getAllFiles : String → List String) :
    validateCodeOwners rules (scanAllFiles getAllFiles []) [] = Except.ok ()
    ∧ ∀ r : String, isRuleRelevantToFolders r [] = false := by
  constructor
  · rw [show scanAllFiles getAllFiles [] = [] from rfl,
      validateCodeOwners_ok_iff]
    constructor
    · unfold unusedRulesOf
      rw [show (processFiles rules []).1 = rules from rfl]
      rw [show (fun (e : String × Nat) =>
          e.2 == 0 && isRuleRelevantToFolders e.1 []) = fun _ => false by
        funext e
        rw [show isRuleRelevantToFolders e.1 [] = false from rfl,
          Bool.and_false]]
      rw [show rules.filter (fun _ => false) = [] by
        rw [List.filter_eq_nil_iff]
        intro a ha
        simp]
      rfl
    · rfl
  · intro r
    rfl

-- ## Normalization idempotence

theorem normalizePath_no_backslash (p : String) :
    ∀ c ∈ (normalizePath p).data, ¬(c = '\\') := by
  intro c hc
  have hc2 : c ∈ (dropTrailing '/'
      (if strStartsWith
          (if strStartsWith p "./" then String.mk (p.data.drop 2) else p) "/"
        then String.mk
          ((if strStartsWith p "./" then String.mk (p.data.drop 2)
            else p).data.drop 1)
        else
          (if strStartsWith p "./" then String.mk (p.data.drop 2)
            else p)).data).map
      (fun c => if c == '\\' then '/' else c) := hc
  rcases List.mem_map.mp hc2 with ⟨a, ha, hfa⟩
  by_cases hb : (a == '\\') = true
  · rw [if_pos hb] at hfa
    rw [← hfa]
    decide
  · rw [if_neg hb] at hfa
    rw [← hfa]
    simpa using hb

/-- C6 counterexample: normalizing `//foo` gives `/foo`, and a second
normalization strips the leading slash again, so normalization is not
idempotent on all inputs. -/
theorem normalizePath_not_idempotent :
    ¬ (normalizePath (normalizePath "//foo") = normalizePath "//foo") := by
  decide

/-- C6 (amended): normalization is idempotent on every input whose
normalized form neither begins with `/` or `./` nor ends with `/`; the
source violates idempotence exactly through such outputs, as on `//foo`
(leading slash survives one pass) or a backslash before the end. -/
theorem normalizePath_idempotent_of_clean (p : String)
    (h1 : strStartsWith (normalizePath p) "./" = false)
    (h2 : strStartsWith (normalizePath p) "/" = false)
    (h3 : strEndsWith (normalizePath p) "/" = false) :
    normalizePath (normalizePath p) = normalizePath p := by
  have hnb := normalizePath_no_backslash p
  revert h1 h2 h3 hnb
  generalize normalizePath p = q
  intro h1 h2 h3 hnb
  have hdt : dropTrailing '/' q.data = q.data := by
    unfold dropTrailing
    cases hrev : q.data.reverse with
    | nil =>
      rw [List.dropWhile_nil, List.reverse_nil]
      exact (List.reverse_eq_nil_iff.mp hrev).symm
    | cons c cs =>
      have hcnot : ¬((c == '/') = true) := by
        intro hh
        apply Bool.false_ne_true
        rw [← h3]
        unfold strEndsWith
        rw [show ("/" : String).data.reverse = ['/'] from rfl, hrev]
        unfold leadsWith
        rw [show ('/' == c) = true from by
          rw [beq_iff_eq] at hh ⊢
          exact hh.symm]
        rfl
      rw [List.dropWhile_cons, if_neg hcnot, ← hrev, List.reverse_reverse]
  have hmap : q.data.map (fun c => if c == '\\' then '/' else c) = q.data := by
    refine (List.map_congr_left ?_).trans (List.map_id q.data)
    intro c hc
    rw [if_neg (by simpa using hnb c hc)]
    rfl
  unfold normalizePath
  simp only [h1, h2, Bool.false_eq_true, if_false]
  rw [hdt, hmap]

/-- Witness for C6 (amended) at a clean path. -/
theorem normalizePath_idempotent_witness :
    strStartsWith (normalizePath "pkg/lib") "./" = false
    ∧ strStartsWith (normalizePath "pkg/lib") "/" = false
    ∧ strEndsWith (normalizePath "pkg/lib") "/" = false
    ∧ normalizePath (normalizePath "pkg/lib") = normalizePath "pkg/lib" :=
  ⟨by decide, by decide, by decide,
    normalizePath_idempotent_of_clean "pkg/lib" (by decide) (by decide)
      (by decide)⟩

-- ## Relevance monotonicity

/-- C8: relevance is monotone in the folder list: enlarging the folder
list never makes a relevant rule irrelevant. -/
theorem isRuleRelevantToFolders_monotone (r : String) (F F2 : List String)
    (hsub : ∀ d ∈ F, d ∈ F2)
    (h : isRuleRelevantToFolders r F = true) :
    isRuleRelevantToFolders r F2 = true := by
  simp only [isRuleRelevantToFolders, List.any_eq_true] at h ⊢
  rcases h with ⟨d, hd, hcond⟩
  exact ⟨d, hsub d hd, hcond⟩

/-- Witness for C8 when adding a folder. -/
theorem isRuleRelevantToFolders_monotone_witness :
    (∀ d ∈ ["src"], d ∈ ["src", "pkg"])
    ∧ isRuleRelevantToFolders "/src/lib" ["src"] = true
    ∧ isRuleRelevantToFolders "/src/lib" ["src", "pkg"] = true :=
  ⟨by decide, by decide,
    isRuleRelevantToFolders_monotone "/src/lib" ["src"] ["src", "pkg"]
      (by decide) (by decide)⟩

-- ## Manifest parsing

theorem splitOnChar_headD (sep : Char) (l : List Char) :
    (splitOnChar sep l).headD [] = l.takeWhile (fun c => !(c == sep)) := by
  induction l with
  | nil => rfl
  | cons c cs ih =>
    by_cases hc : (c == sep) = true
    · rw [show splitOnChar sep (c :: cs) = [] :: splitOnChar sep cs by
        simp [splitOnChar, hc], List.takeWhile_cons]
      simp [hc]
    · rw [splitOnChar_cons_ne sep c cs (by simpa using hc),
        List.takeWhile_cons]
      simp only [List.headD_cons, hc, Bool.not_false, if_true]
      rw [ih]

theorem mapSet_mem_iff (m : List (String × Nat)) (k : String) (v : Nat)
    (p : String) :
    (∃ c, (p, c) ∈ mapSet m k v) ↔ (∃ c, (p, c) ∈ m) ∨ p = k := by
  unfold mapSet
  by_cases hex : (m.any (fun e => e.1 == k)) = true
  · rw [if_pos hex]
    constructor
    · rintro ⟨c, hc⟩
      rcases List.mem_map.mp hc with ⟨e, he, hupd⟩
      by_cases hek : (e.1 == k) = true
      · rw [if_pos hek] at hupd
        right
        have : k = p := congrArg Prod.fst hupd
        exact this.symm
      · rw [if_neg hek] at hupd
        exact Or.inl ⟨c, hupd ▸ he⟩
    · rintro (⟨c, hc⟩ | rfl)
      · by_cases hpk : (p == k) = true
        · rcases List.any_eq_true.mp hex with ⟨e, he, hek⟩
          refine ⟨v, List.mem_map.mpr ⟨e, he, ?_⟩⟩
          rw [if_pos hek, beq_iff_eq.mp hpk]
        · refine ⟨c, List.mem_map.mpr ⟨(p, c), hc, ?_⟩⟩
          rw [if_neg hpk]
      · rcases List.any_eq_true.mp hex with ⟨e, he, hek⟩
        refine ⟨v, List.mem_map.mpr ⟨e, he, ?_⟩⟩
        rw [if_pos hek]
  · rw [if_neg hex]
    constructor
    · rintro ⟨c, hc⟩
      rcases List.mem_append.mp hc with h | h
      · exact Or.inl ⟨c, h⟩
      · right
        have : (p, c) = (k, v) := List.mem_singleton.mp h
        exact congrArg Prod.fst this
    · rintro (⟨c, hc⟩ | rfl)
      · exact ⟨c, List.mem_append_left _ hc⟩
      · exact ⟨v, List.mem_append_right _ (List.mem_singleton.mpr rfl)⟩

theorem parse_mem_go (lines : List String) (acc : List (String × Nat))
    (p : String) :
    (∃ c, (p, c) ∈ lines.foldl
        (fun rules line =>
          if isValidCodeOwnersLine line then
            mapSet rules (firstSpaceField line) 0
          else rules) acc)
    ↔ ((∃ c, (p, c) ∈ acc)
        ∨ ∃ l ∈ lines, isValidCodeOwnersLine l = true
            ∧ firstSpaceField l = p) := by
  induction lines generalizing acc with
  | nil => simp
  | cons l ls ih =>
    rw [List.foldl_cons]
    by_cases hv : isValidCodeOwnersLine l = true
    · rw [if_pos hv, ih, mapSet_mem_iff]
      simp only [List.mem_cons]
      constructor
      · rintro ((hacc | rfl) | ⟨l2, hl2, hv2, hf2⟩)
        · exact Or.inl hacc
        · exact Or.inr ⟨l, Or.inl rfl, hv, rfl⟩
        · exact Or.inr ⟨l2, Or.inr hl2, hv2, hf2⟩
      · rintro (hacc | ⟨l2, hl2 | hl2, hv2, hf2⟩)
        · exact Or.inl (Or.inl hacc)
        · subst hl2
          exact Or.inl (Or.inr hf2.symm)
        · exact Or.inr ⟨l2, hl2, hv2, hf2⟩
    · rw [if_neg hv, ih]
      simp only [List.mem_cons]
      constructor
      · rintro (hacc | ⟨l2, hl2, hv2, hf2⟩)
        · exact Or.inl hacc
        · exact Or.inr ⟨l2, Or.inr hl2, hv2, hf2⟩
      · rintro (hacc | ⟨l2, hl2 | hl2, hv2, hf2⟩)
        · exact Or.inl hacc
        · exact absurd (hl2 ▸ hv2) hv
        · exact Or.inr ⟨l2, hl2, hv2, hf2⟩

theorem isValidCodeOwnersLine_iff (l : String) :
    isValidCodeOwnersLine l = true ↔
      (¬ (['#'] <+: l.data) ∧ ∃ ch ∈ l.data, ch.isWhitespace = false) := by
  unfold isValidCodeOwnersLine
  rw [Bool.and_eq_true, List.any_eq_true]
  constructor
  · rintro ⟨hnot, ch, hch, hws⟩
    refine ⟨?_, ch, hch, by simpa using hws⟩
    intro hpre
    have : strStartsWith l "#" = true := (strStartsWith_iff l "#").mpr hpre
    rw [this] at hnot
    exact absurd hnot (by decide)
  · rintro ⟨hnot, ch, hch, hws⟩
    refine ⟨?_, ch, hch, by simpa using hws⟩
    have : strStartsWith l "#" = false := by
      rw [Bool.eq_false_iff]
      intro hh
      exact hnot ((strStartsWith_iff l "#").mp hh)
    rw [this]
    rfl

theorem firstSpaceField_eq_iff (l p : String) :
    firstSpaceField l = p ↔
      ∃ rest, l.data = p.data ++ rest ∧ (¬ (' ' ∈ p.data))
        ∧ (rest = [] ∨ rest.head? = some ' ') := by
  have hqspec : ∀ c : Char, (!(c == ' ')) = true ↔ ¬(c = ' ') := by
    intro c
    simp
  constructor
  · intro hh
    have hdata : l.data.takeWhile (fun c => !(c == ' ')) = p.data := by
      rw [← splitOnChar_headD]
      exact congrArg String.data hh
    refine ⟨l.data.dropWhile (fun c => !(c == ' ')), ?_, ?_, ?_⟩
    · rw [← hdata, List.takeWhile_append_dropWhile]
    · intro hsp
      have := List.mem_takeWhile_imp (hdata ▸ hsp)
      simp at this
    · cases hd : l.data.dropWhile (fun c => !(c == ' ')) with
      | nil => exact Or.inl rfl
      | cons a rest2 =>
        right
        have hna := List.head?_dropWhile_not (fun c => !(c == ' ')) l.data
        rw [hd] at hna
        have ha : a = ' ' := by simpa using hna
        rw [ha]
        rfl
  · rintro ⟨rest, hl, hnsp, hcase⟩
    have hdata : l.data.takeWhile (fun c => !(c == ' ')) = p.data := by
      rw [hl]
      have hall : ∀ c ∈ p.data, (!(c == ' ')) = true := by
        intro c hc
        rw [hqspec]
        intro hceq
        exact hnsp (hceq ▸ hc)
      rw [List.takeWhile_append_of_pos hall]
      rcases hcase with rfl | hhd
      · simp
      · cases rest with
        | nil => simp
        | cons a rest2 =>
          have ha : a = ' ' := by simpa using hhd
          rw [List.takeWhile_cons, if_neg (by simp [ha]), List.append_nil]
    unfold firstSpaceField
    rw [string_eq_iff_data]
    rw [show (String.mk ((splitOnChar ' ' l.data).headD [])).data
        = (splitOnChar ' ' l.data).headD [] from rfl]
    rw [splitOnChar_headD]
    exact hdata

/-- C7 counterexample: the line `  #x` has `#` as its first
non-whitespace character yet is accepted, because the source tests the
raw first character; and the accepted line `  /pkg @owner` stores the
empty pattern rather than the first whitespace-delimited token, because
the source takes the text before the first space. -/
theorem parse_line_claim_counterexample :
    isValidCodeOwnersLine "  #x" = true
    ∧ ("  #x".data.dropWhile Char.isWhitespace).head? = some '#'
    ∧ parseCodeOwnersFile ["  /pkg @owner"] = [("", 0)] := by
  refine ⟨by decide, by decide, by decide⟩

/-- C7 (amended): a pattern is stored by the parser exactly when some
line of the manifest is accepted and yields it, where a line is accepted
when its raw first character is not `#` and it contains a non-whitespace
character, and the pattern of an accepted line is the portion of the
line before its first space character. -/
theorem parseCodeOwnersFile_mem_iff (lines : List String) (p : String) :
    (∃ c, (p, c) ∈ parseCodeOwnersFile lines) ↔
      ∃ l ∈ lines,
        (¬ (['#'] <+: l.data) ∧ ∃ ch ∈ l.data, ch.isWhitespace = false)
        ∧ ∃ rest, l.data = p.data ++ rest ∧ (¬ (' ' ∈ p.data))
            ∧ (rest = [] ∨ rest.head? = some ' ') := by
  unfold parseCodeOwnersFile
  rw [parse_mem_go]
  constructor
  · rintro (⟨c, hc⟩ | ⟨l, hl, hv, hf⟩)
    · exact absurd hc (List.not_mem_nil _)
    · exact ⟨l, hl, (isValidCodeOwnersLine_iff l).mp hv,
        (firstSpaceField_eq_iff l p).mp hf⟩
  · rintro ⟨l, hl, hvp, hfp⟩
    exact Or.inr ⟨l, hl, (isValidCodeOwnersLine_iff l).mpr hvp,
      (firstSpaceField_eq_iff l p).mpr hfp⟩

/-- Witness for C7 (amended) at a small manifest. -/
theorem parseCodeOwnersFile_mem_iff_witness :
    (∃ c, ("/pkg", c) ∈ parseCodeOwnersFile ["/pkg @owner"]) ↔
      ∃ l ∈ ["/pkg @owner"],
        (¬ (['#'] <+: l.data) ∧ ∃ ch ∈ l.data, ch.isWhitespace = false)
        ∧ ∃ rest, l.data = "/pkg".data ++ rest ∧ (¬ (' ' ∈ "/pkg".data))
            ∧ (rest = [] ∨ rest.head? = some ' ') :=
  parseCodeOwnersFile_mem_iff ["/pkg @owner"] "/pkg"
